import Mathlib

/-!
Verification of the psutil `_common.py` normalization layer.

This file gives a shallow embedding of the pure core of `psutil/_common.py`:

* Python dicts are insertion-ordered association lists (`dictSet` / `dictGet`);
* `parse_environ_block` is embedded with the position-based scanning loop of
  the source turned into recursion on the suffix of the data that starts at
  the loop's `pos` (Python's `data.find(c, pos)` becomes `pyFind c` on that
  suffix);
* `memoize` is embedded as an explicit state transformer over a cache state,
  with a call counter instrumenting how often the wrapped function runs, and
  the wrapped function returning `Except` so that a raised exception can be
  modelled;
* `usage_percent` is embedded over a `PyNum` type separating int-typed from
  float-typed Python numbers (float arithmetic idealized as rationals; the
  claims proved here only exercise the zero-`total` branch, which performs no
  division);
* `sockfam_to_enum` / `socktype_to_enum` are embedded over an explicit model
  of the runtime's enum tables;
* `conn_tmap` is embedded as a function of the two platform-capability bits
  (`AF_INET6`/`AF_UNIX` present in the socket module or `None`).

The error-class rendering and the Process identity model are not part of the
given sources (only their tests are), so they are modelled from the spec.
-/

set_option autoImplicit false

namespace Psutil

/-- Python dict assignment `d[k] = v` on an insertion-ordered association
list: an existing key keeps its position and gets the new value, a new key is
appended at the end. -/
def dictSet {κ β : Type} [DecidableEq κ] : List (κ × β) → κ → β → List (κ × β)
  | [], k, v => [(k, v)]
  | (k', v') :: rest, k, v =>
      if k' = k then (k, v) :: rest else (k', v') :: dictSet rest k v

/-- Python dict lookup `d.get(k)`. -/
def dictGet {κ β : Type} [DecidableEq κ] : List (κ × β) → κ → Option β
  | [], _ => none
  | (k', v') :: rest, k => if k' = k then some v' else dictGet rest k

/-- Index of the first occurrence of `c` in `l`: the suffix-relative form of
Python's `data.find(c, pos)` (with `l` the suffix of `data` starting at
`pos`); `none` plays the role of Python's `-1`. -/
def pyFind (c : Char) : List Char → Option Nat
  | [] => none
  | x :: xs => if x = c then some 0 else (pyFind c xs).map (· + 1)

theorem pyFind_lt_length {c : Char} :
    ∀ {l : List Char} {n : Nat}, pyFind c l = some n → n < l.length := by
  intro l
  induction l with
  | nil => intro n h; simp [pyFind] at h
  | cons x xs ih =>
      intro n h
      simp only [pyFind] at h
      by_cases hx : x = c
      · simp [hx] at h
        simp only [List.length_cons]
        omega
      · simp [hx] at h
        obtain ⟨m, hm, rfl⟩ := h
        have := ih hm
        simp only [List.length_cons]
        omega

/-- `psutil._common.parse_environ_block`, embedded from the source.  The
source's `while` loop carries a position `pos` into the immutable `data`; here
`data` is the suffix of the original block starting at `pos`, and one
recursive call performs one loop iteration.  `WINDOWS_` is the source's
localized `WINDOWS` flag (keys are upper-cased on Windows), `ret` is the
accumulated dict. -/
def parse_environ_block (WINDOWS_ : Bool) (ret : List (String × String))
    (data : List Char) : List (String × String) :=
  match h : pyFind '\x00' data with
  | none => ret
  | some 0 => ret
  | some (m + 1) =>
      let entry := data.take (m + 1)
      let ret' :=
        match pyFind '=' entry with
        | none => ret
        | some 0 => ret
        | some (e + 1) =>
            let key : String := ⟨entry.take (e + 1)⟩
            let value : String := ⟨entry.drop (e + 2)⟩
            dictSet ret (if WINDOWS_ then key.toUpper else key) value
      parse_environ_block WINDOWS_ ret' (data.drop (m + 2))
termination_by data.length
decreasing_by
  have hlt := pyFind_lt_length h
  simp only [List.length_drop]
  omega

/-! ### Spec-side description of environment-block parsing (for claim C1)

The spec describes the result as: the mapping of the complete `KEY=VALUE`
entries that precede the first double terminator (or a terminator at buffer
start); an entry with no `=` strictly inside it, or whose first `=` is at
position 0 (empty key), contributes nothing; a final entry missing its
terminator is dropped.  The definitions below follow those words. -/

/-- Split the block at every NUL terminator.  The last element of the result
is the text after the final terminator: the possibly-empty, possibly-truncated
tail, which never has a bounding terminator of its own. -/
def chunksOf : List Char → List (List Char)
  | [] => [[]]
  | c :: rest =>
      if c = '\x00' then [] :: chunksOf rest
      else
        match chunksOf rest with
        | [] => [[c]]
        | chunk :: chunks => (c :: chunk) :: chunks

/-- The complete (terminator-bounded) entries that precede the first double
terminator: drop the unterminated tail, then stop at the first empty entry
(an empty entry is exactly a terminator immediately following another one, or
one at buffer start). -/
def completeEntries (data : List Char) : List (List Char) :=
  ((chunksOf data).dropLast).takeWhile (fun e => !e.isEmpty)

/-- The contribution of a single entry: split at the first `=`; the entry
contributes nothing when there is no `=` or when the `=` sits at position 0
(empty key); otherwise the text before the first `=` is the key (upper-cased
on Windows) and the text after it is the value. -/
def entryKV (WINDOWS_ : Bool) (entry : List Char) : Option (String × String) :=
  match entry.span (fun c => c != '=') with
  | (k, r) =>
      if k = [] ∨ r = [] then none
      else some (if WINDOWS_ then String.toUpper ⟨k⟩ else (⟨k⟩ : String), ⟨r.tail⟩)

/-- Fold one entry's contribution into the accumulated dict. -/
def applyEntry (WINDOWS_ : Bool) (d : List (String × String)) (entry : List Char) :
    List (String × String) :=
  match entryKV WINDOWS_ entry with
  | none => d
  | some (k, v) => dictSet d k v

/-- The mapping the spec describes: the complete entries before the first
double terminator, folded left-to-right into a dict. -/
def specParse (WINDOWS_ : Bool) (data : List Char) : List (String × String) :=
  (completeEntries data).foldl (applyEntry WINDOWS_) []

/-- The value of the last complete contributing entry carrying key `k`
(spec side of claim C10): later entries take precedence over earlier ones. -/
def lastAssign (WINDOWS_ : Bool) (k : String) : List (List Char) → Option String
  | [] => none
  | e :: es =>
      match lastAssign WINDOWS_ k es with
      | some v => some v
      | none =>
          match entryKV WINDOWS_ e with
          | none => none
          | some (k', v) => if k' = k then some v else none

/-! ### Lemmas about `pyFind` -/

theorem pyFind_none {c : Char} :
    ∀ {l : List Char}, pyFind c l = none → c ∉ l := by
  intro l
  induction l with
  | nil => intro _; simp
  | cons x xs ih =>
      intro h
      simp only [pyFind] at h
      by_cases hx : x = c
      · simp [hx] at h
      · simp only [if_neg hx, Option.map_eq_none'] at h
        intro hmem
        rcases List.mem_cons.mp hmem with rfl | hmem'
        · exact hx rfl
        · exact ih h hmem'

theorem pyFind_some_decomp {c : Char} :
    ∀ {l : List Char} {n : Nat}, pyFind c l = some n →
      c ∉ l.take n ∧ l = l.take n ++ c :: l.drop (n + 1) := by
  intro l
  induction l with
  | nil => intro n h; simp [pyFind] at h
  | cons x xs ih =>
      intro n h
      simp only [pyFind] at h
      by_cases hx : x = c
      · simp only [if_pos hx] at h
        obtain rfl : (0 : Nat) = n := Option.some.inj h
        subst hx
        simp
      · simp only [if_neg hx, Option.map_eq_some'] at h
        obtain ⟨m, hm, rfl⟩ := h
        obtain ⟨h1, h2⟩ := ih hm
        refine ⟨?_, ?_⟩
        · simp only [List.take_succ_cons]
          intro hmem
          rcases List.mem_cons.mp hmem with rfl | hmem'
          · exact hx rfl
          · exact h1 hmem'
        · simp only [List.take_succ_cons, List.drop_succ_cons, List.cons_append]
          exact congrArg (x :: ·) h2

/-! ### Lemmas about `chunksOf` -/

theorem chunksOf_ne_nil : ∀ (l : List Char), chunksOf l ≠ [] := by
  intro l
  cases l with
  | nil => simp [chunksOf]
  | cons c rest =>
      simp only [chunksOf]
      by_cases hc : c = '\x00'
      · simp [hc]
      · simp only [if_neg hc]
        split <;> simp

theorem chunksOf_no_nul : ∀ {l : List Char}, '\x00' ∉ l → chunksOf l = [l] := by
  intro l
  induction l with
  | nil => intro _; rfl
  | cons c rest ih =>
      intro h
      have hc : ¬(c = '\x00') := fun e => h (by simp [e])
      have hr : '\x00' ∉ rest := fun hm => h (List.mem_cons_of_mem _ hm)
      simp only [chunksOf, if_neg hc, ih hr]

theorem chunksOf_append : ∀ {pre : List Char} (rest : List Char), '\x00' ∉ pre →
    chunksOf (pre ++ '\x00' :: rest) = pre :: chunksOf rest := by
  intro pre
  induction pre with
  | nil => intro rest _; simp [chunksOf]
  | cons c pre' ih =>
      intro rest h
      have hc : ¬(c = '\x00') := fun e => h (by simp [e])
      have hp : '\x00' ∉ pre' := fun hm => h (List.mem_cons_of_mem _ hm)
      simp only [List.cons_append, chunksOf, if_neg hc, List.append_eq, ih rest hp]

/-! ### Lemmas about `completeEntries` -/

theorem completeEntries_no_nul {data : List Char} (h : '\x00' ∉ data) :
    completeEntries data = [] := by
  unfold completeEntries
  rw [chunksOf_no_nul h]
  simp

theorem completeEntries_nul_head (rest : List Char) :
    completeEntries ('\x00' :: rest) = [] := by
  unfold completeEntries
  have h0 : chunksOf ('\x00' :: rest) = [] :: chunksOf rest := by simp [chunksOf]
  rw [h0]
  cases hcs : chunksOf rest with
  | nil => exact absurd hcs (chunksOf_ne_nil rest)
  | cons c cs => simp [List.dropLast, List.takeWhile_cons]

theorem completeEntries_step {pre : List Char} (rest : List Char)
    (hnp : '\x00' ∉ pre) (hne : pre ≠ []) :
    completeEntries (pre ++ '\x00' :: rest) = pre :: completeEntries rest := by
  unfold completeEntries
  rw [chunksOf_append rest hnp]
  cases hcs : chunksOf rest with
  | nil => exact absurd hcs (chunksOf_ne_nil rest)
  | cons c cs =>
      have hpe : pre.isEmpty = false := by
        cases pre with
        | nil => exact absurd rfl hne
        | cons a l => rfl
      simp [List.dropLast, List.takeWhile_cons, hpe]

/-! ### `span` (spec side) versus `pyFind` (code side) -/

theorem takeWhile_pyFind_none {c : Char} :
    ∀ {l : List Char}, pyFind c l = none →
      (l.takeWhile (fun x => x != c) = l ∧ l.dropWhile (fun x => x != c) = []) := by
  intro l
  induction l with
  | nil => intro _; simp
  | cons x xs ih =>
      intro h
      simp only [pyFind] at h
      by_cases hx : x = c
      · simp [hx] at h
      · simp only [if_neg hx, Option.map_eq_none'] at h
        have hb : (x != c) = true := by simp [hx]
        obtain ⟨h1, h2⟩ := ih h
        simp [List.takeWhile_cons, List.dropWhile_cons, hb, h1, h2]

theorem takeWhile_pyFind_some {c : Char} :
    ∀ {l : List Char} {n : Nat}, pyFind c l = some n →
      (l.takeWhile (fun x => x != c) = l.take n ∧
        l.dropWhile (fun x => x != c) = l.drop n) := by
  intro l
  induction l with
  | nil => intro n h; simp [pyFind] at h
  | cons x xs ih =>
      intro n h
      simp only [pyFind] at h
      by_cases hx : x = c
      · simp only [if_pos hx] at h
        obtain rfl : (0 : Nat) = n := Option.some.inj h
        have hb : (x != c) = false := by simp [hx]
        simp [List.takeWhile_cons, List.dropWhile_cons, hb]
      · simp only [if_neg hx, Option.map_eq_some'] at h
        obtain ⟨m, hm, rfl⟩ := h
        have hb : (x != c) = true := by simp [hx]
        obtain ⟨h1, h2⟩ := ih hm
        simp [List.takeWhile_cons, List.dropWhile_cons, hb, h1, h2,
          List.take_succ_cons, List.drop_succ_cons]

/-- The spec-side entry contribution, re-expressed through the code-side
first-`=` index: the two agree on every entry. -/
theorem entryKV_eq_find (W : Bool) (entry : List Char) :
    entryKV W entry =
      match pyFind '=' entry with
      | none => none
      | some 0 => none
      | some (e + 1) =>
          some (if W then String.toUpper ⟨entry.take (e + 1)⟩
              else (⟨entry.take (e + 1)⟩ : String),
            (⟨entry.drop (e + 2)⟩ : String)) := by
  unfold entryKV
  rw [List.span_eq_take_drop]
  cases hf : pyFind '=' entry with
  | none =>
      obtain ⟨ht, hd⟩ := takeWhile_pyFind_none hf
      rw [ht, hd]
      simp
  | some n =>
      obtain ⟨ht, hd⟩ := takeWhile_pyFind_some hf
      rw [ht, hd]
      cases n with
      | zero => simp
      | succ e =>
          have hlt := pyFind_lt_length hf
          have hk : entry.take (e + 1) ≠ [] := by
            intro hnil
            have hlen := congrArg List.length hnil
            rw [List.length_take, List.length_nil] at hlen
            omega
          have hr : entry.drop (e + 1) ≠ [] := by
            intro hnil
            have hlen := congrArg List.length hnil
            rw [List.length_drop, List.length_nil] at hlen
            omega
          dsimp only
          rw [if_neg (by simp [hk, hr]), List.tail_drop]

theorem applyEntry_eq_find (W : Bool) (ret : List (String × String)) (entry : List Char) :
    applyEntry W ret entry =
      match pyFind '=' entry with
      | none => ret
      | some 0 => ret
      | some (e + 1) =>
          dictSet ret
            (if W then String.toUpper ⟨entry.take (e + 1)⟩
             else (⟨entry.take (e + 1)⟩ : String))
            (⟨entry.drop (e + 2)⟩ : String) := by
  unfold applyEntry
  rw [entryKV_eq_find]
  cases hf : pyFind '=' entry with
  | none => rfl
  | some n => cases n with
      | zero => rfl
      | succ e => rfl

/-! ### Unfolding lemmas for `parse_environ_block` -/

theorem parse_of_find_none (W : Bool) (ret : List (String × String)) {data : List Char}
    (hf : pyFind '\x00' data = none) :
    parse_environ_block W ret data = ret := by
  rw [parse_environ_block.eq_def]
  split
  · rfl
  · rfl
  · next m heq => rw [hf] at heq; cases heq

theorem parse_of_find_zero (W : Bool) (ret : List (String × String)) {data : List Char}
    (hf : pyFind '\x00' data = some 0) :
    parse_environ_block W ret data = ret := by
  rw [parse_environ_block.eq_def]
  split
  · rfl
  · rfl
  · next m heq => rw [hf] at heq; cases heq

theorem parse_of_find_succ (W : Bool) (ret : List (String × String)) {data : List Char}
    {m : Nat} (hf : pyFind '\x00' data = some (m + 1)) :
    parse_environ_block W ret data =
      parse_environ_block W (applyEntry W ret (data.take (m + 1))) (data.drop (m + 2)) := by
  rw [parse_environ_block.eq_def]
  split
  · next heq => rw [hf] at heq; cases heq
  · next heq => rw [hf] at heq; cases heq
  · next m' heq =>
      rw [hf] at heq
      cases heq
      rw [applyEntry_eq_find]

/-- The embedded `parse_environ_block` computes exactly the spec-side fold over
the complete entries that precede the first double terminator. -/
theorem parse_eq_foldl (W : Bool) :
    ∀ (n : Nat) (data : List Char), data.length ≤ n → ∀ (ret : List (String × String)),
      parse_environ_block W ret data = (completeEntries data).foldl (applyEntry W) ret := by
  intro n
  induction n with
  | zero =>
      intro data hlen ret
      have hd : data = [] := List.eq_nil_of_length_eq_zero (Nat.le_zero.mp hlen)
      subst hd
      rw [parse_of_find_none W ret (rfl : pyFind '\x00' [] = none),
        completeEntries_no_nul (by simp)]
      rfl
  | succ n ih =>
      intro data hlen ret
      cases hf : pyFind '\x00' data with
      | none =>
          rw [parse_of_find_none W ret hf, completeEntries_no_nul (pyFind_none hf)]
          rfl
      | some k =>
          cases k with
          | zero =>
              obtain ⟨-, hdec⟩ := pyFind_some_decomp hf
              have hdec2 : data = '\x00' :: data.drop 1 := hdec
              rw [parse_of_find_zero W ret hf]
              conv_rhs => rw [hdec2]
              rw [completeEntries_nul_head]
              rfl
          | succ m =>
              obtain ⟨hnp, hdec⟩ := pyFind_some_decomp hf
              have hdec2 : data = data.take (m + 1) ++ '\x00' :: data.drop (m + 2) := hdec
              have hlt := pyFind_lt_length hf
              have hne : data.take (m + 1) ≠ [] := by
                intro hnil
                have hlen2 := congrArg List.length hnil
                rw [List.length_take, List.length_nil] at hlen2
                omega
              have hdl : (data.drop (m + 2)).length ≤ n := by
                rw [List.length_drop]
                omega
              rw [parse_of_find_succ W ret hf, ih (data.drop (m + 2)) hdl]
              conv_rhs => rw [hdec2]
              rw [completeEntries_step (data.drop (m + 2)) hnp hne, List.foldl_cons]

/-! ### Dict lemmas -/

theorem dictGet_dictSet {κ β : Type} [DecidableEq κ] (d : List (κ × β)) (k k' : κ) (v : β) :
    dictGet (dictSet d k v) k' = if k = k' then some v else dictGet d k' := by
  induction d with
  | nil =>
      simp only [dictSet, dictGet]
  | cons p rest ih =>
      obtain ⟨k0, v0⟩ := p
      simp only [dictSet]
      by_cases h0 : k0 = k
      · subst h0
        simp only [if_pos rfl, dictGet]
        by_cases h : k0 = k' <;> simp [h]
      · rw [if_neg h0]
        simp only [dictGet, ih]
        by_cases h1 : k0 = k'
        · subst h1
          rw [if_pos rfl]
          rw [if_neg (fun h2 => h0 h2.symm)]
          rw [if_pos rfl]
        · rw [if_neg h1]
          by_cases h2 : k = k'
          · rw [if_pos h2, if_pos h2]
          · rw [if_neg h2, if_neg h2, if_neg h1]

theorem dictGet_foldl (W : Bool) (k : String) :
    ∀ (es : List (List Char)) (d : List (String × String)),
      dictGet (es.foldl (applyEntry W) d) k =
        match lastAssign W k es with
        | some v => some v
        | none => dictGet d k := by
  intro es
  induction es with
  | nil => intro d; rfl
  | cons e es ih =>
      intro d
      rw [List.foldl_cons, ih, lastAssign]
      cases hL : lastAssign W k es with
      | some v => rfl
      | none =>
          unfold applyEntry
          cases hE : entryKV W e with
          | none => rfl
          | some kv =>
              obtain ⟨k', v⟩ := kv
              dsimp only
              rw [dictGet_dictSet]
              by_cases hk : k' = k
              · rw [if_pos hk, if_pos hk]
              · rw [if_neg hk, if_neg hk]

/-! ### Claims C1 and C10 -/

/-- C1: for every input block, `parse_environ_block` returns exactly the
mapping of the complete `KEY=VALUE` entries that precede the first double
terminator (or a terminator at buffer start) — entries without an `=` strictly
inside, or whose first `=` is at position 0, contribute nothing, everything
after a double terminator is ignored, and a final unterminated entry is
dropped without the parse failing; in particular the six round-trip examples
of the spec hold. -/
theorem parse_environ_block_matches_spec :
    (∀ (W : Bool) (data : List Char),
        parse_environ_block W [] data = specParse W data) ∧
    parse_environ_block false [] "a=1\x00".data = [("a", "1")] ∧
    parse_environ_block false [] "a=1\x00b=2\x00\x00".data = [("a", "1"), ("b", "2")] ∧
    parse_environ_block false [] "a=1\x00b=2\x00\x00c=3\x00".data = [("a", "1"), ("b", "2")] ∧
    parse_environ_block false [] "xxx\x00a=1\x00".data = [("a", "1")] ∧
    parse_environ_block false [] "a=1\x00=b=2\x00".data = [("a", "1")] ∧
    parse_environ_block false [] "a=1\x00b=2".data = [("a", "1")] := by
  have huniv : ∀ (W : Bool) (data : List Char),
      parse_environ_block W [] data = specParse W data := fun W data =>
    parse_eq_foldl W data.length data (le_refl _) []
  refine ⟨huniv, ?_, ?_, ?_, ?_, ?_, ?_⟩ <;> rw [huniv] <;> decide

/-- C10: when several complete entries share a key, `parse_environ_block`
keeps the value of the last such entry — the final mapping of every key is the
last assignment to it among the complete entries before the double terminator;
in particular parsing two assignments to the key a keeps the second one. -/
theorem parse_environ_block_last_assignment_wins :
    (∀ (W : Bool) (data : List Char) (k : String),
        dictGet (parse_environ_block W [] data) k =
          lastAssign W k (completeEntries data)) ∧
    parse_environ_block false [] "a=1\x00a=2\x00".data = [("a", "2")] := by
  constructor
  · intro W data k
    rw [parse_eq_foldl W data.length data (le_refl _) [], dictGet_foldl]
    cases hL : lastAssign W k (completeEntries data) with
    | some v => rfl
    | none => rfl
  · rw [parse_eq_foldl false "a=1\x00a=2\x00".data.length _ (le_refl _) []]
    decide

/-! ### `memoize` (claims C2 and C9)

`psutil._common.memoize` wraps a function with a cache dict keyed by
`(args, frozenset(sorted(kwargs.items())))` and exposes `cache_clear()`.
The wrapper body is

    key = (args, frozenset(sorted(kwargs.items())))
    try: return cache[key]
    except KeyError: ret = cache[key] = fun(*args, **kwargs)
    return ret

A raised exception inside `fun` propagates before the assignment to
`cache[key]` happens, so the cache is left unchanged; this is modelled by the
wrapped function returning `Except`. -/

/-- The cache key of one call: the positional-argument tuple together with the
keyword items; `frozenset(sorted(kwargs.items()))` compares as a set, so the
items are modelled as a `Finset`. -/
structure MemoKey where
  args : List Int
  kwargs : Finset (String × Int)
deriving DecidableEq

/-- Build the cache key from the call's positional and keyword arguments. -/
def mkKey (args : List Int) (kwargs : List (String × Int)) : MemoKey :=
  ⟨args, kwargs.toFinset⟩

/-- The state owned by one memoized function: the cache dict, plus an
instrumentation counter of how many times the wrapped function has run. -/
structure MemoState (κ α : Type) where
  cache : List (κ × α)
  calls : Nat

/-- One call of the wrapper produced by `memoize`: a cache hit returns the
stored value without running `f`; a miss runs `f` and, only if it returns
normally, stores the result; a raised exception propagates with the cache
unchanged. -/
def memoWrapper {κ α ε : Type} [DecidableEq κ] (f : κ → Except ε α)
    (s : MemoState κ α) (key : κ) : Except ε α × MemoState κ α :=
  match dictGet s.cache key with
  | some v => (Except.ok v, s)
  | none =>
      match f key with
      | Except.ok v => (Except.ok v, ⟨dictSet s.cache key v, s.calls + 1⟩)
      | Except.error e => (Except.error e, ⟨s.cache, s.calls + 1⟩)

/-- `cache_clear()`: wipe the cache.  (The call counter is instrumentation of
the model, not state of the source, and is kept.) -/
def cache_clear {κ α : Type} (s : MemoState κ α) : MemoState κ α :=
  ⟨[], s.calls⟩

/-- Run a sequence of calls against one memoized function, threading the
state. -/
def runCalls {κ α ε : Type} [DecidableEq κ] (f : κ → Except ε α)
    (s : MemoState κ α) : List κ → List (Except ε α) × MemoState κ α
  | [] => ([], s)
  | k :: ks =>
      let r := memoWrapper f s k
      let rest := runCalls f r.2 ks
      (r.1 :: rest.1, rest.2)

/-- A wrapped function that never raises. -/
def pureFun {κ α ε : Type} (g : κ → α) : κ → Except ε α :=
  fun k => Except.ok (g k)

theorem dictGet_none_iff {κ β : Type} [DecidableEq κ] :
    ∀ {d : List (κ × β)} {k : κ}, dictGet d k = none ↔ k ∉ d.map Prod.fst := by
  intro d
  induction d with
  | nil => intro k; simp [dictGet]
  | cons p rest ih =>
      intro k
      obtain ⟨k0, v0⟩ := p
      simp only [dictGet, List.map_cons, List.mem_cons]
      by_cases h : k0 = k
      · subst h
        simp
      · rw [if_neg h, ih]
        constructor
        · intro hh hc
          rcases hc with hc | hc
          · exact h hc.symm
          · exact hh hc
        · intro hh hc
          exact hh (Or.inr hc)

theorem dictGet_some_mem {κ β : Type} [DecidableEq κ] :
    ∀ {d : List (κ × β)} {k : κ} {v : β}, dictGet d k = some v → (k, v) ∈ d := by
  intro d
  induction d with
  | nil => intro k v h; simp [dictGet] at h
  | cons p rest ih =>
      intro k v h
      obtain ⟨k0, v0⟩ := p
      simp only [dictGet] at h
      by_cases h0 : k0 = k
      · subst h0
        rw [if_pos rfl] at h
        obtain rfl := Option.some.inj h
        exact List.mem_cons_self _ _
      · rw [if_neg h0] at h
        exact List.mem_cons_of_mem _ (ih h)

theorem mem_dictSet {κ β : Type} [DecidableEq κ] :
    ∀ {d : List (κ × β)} {k k' : κ} {v v' : β},
      (k', v') ∈ dictSet d k v → (k' = k ∧ v' = v) ∨ (k', v') ∈ d := by
  intro d
  induction d with
  | nil =>
      intro k k' v v' h
      simp [dictSet] at h
      exact Or.inl h
  | cons p rest ih =>
      intro k k' v v' h
      obtain ⟨k0, v0⟩ := p
      simp only [dictSet] at h
      by_cases h0 : k0 = k
      · rw [if_pos h0] at h
        rcases List.mem_cons.mp h with h1 | h1
        · exact Or.inl ⟨congrArg Prod.fst h1, congrArg Prod.snd h1⟩
        · exact Or.inr (List.mem_cons_of_mem _ h1)
      · rw [if_neg h0] at h
        rcases List.mem_cons.mp h with h1 | h1
        · exact Or.inr (List.mem_cons.mpr (Or.inl h1))
        · rcases ih h1 with h2 | h2
          · exact Or.inl h2
          · exact Or.inr (List.mem_cons_of_mem _ h2)

theorem keys_dictSet {κ β : Type} [DecidableEq κ] :
    ∀ (d : List (κ × β)) (k : κ) (v : β),
      ((dictSet d k v).map Prod.fst).toFinset = insert k (d.map Prod.fst).toFinset := by
  intro d
  induction d with
  | nil => intro k v; simp [dictSet]
  | cons p rest ih =>
      intro k v
      obtain ⟨k0, v0⟩ := p
      simp only [dictSet]
      by_cases h0 : k0 = k
      · subst h0
        simp
      · rw [if_neg h0]
        simp only [List.map_cons, List.toFinset_cons, ih]
        exact Finset.Insert.comm k0 k _

/-- Running a non-raising memoized function: every call returns the computed
value for its key, the wrapped function runs exactly once per distinct new
key, the cache stays sound, and the cache domain grows by the called keys. -/
theorem runCalls_ok {κ α ε : Type} [DecidableEq κ] (g : κ → α) :
    ∀ (ks : List κ) (s : MemoState κ α),
      (∀ k v, (k, v) ∈ s.cache → v = g k) →
      ((runCalls (pureFun (ε := ε) g) s ks).1 = ks.map (fun k => Except.ok (g k)) ∧
        (runCalls (pureFun (ε := ε) g) s ks).2.calls =
          s.calls + (ks.toFinset \ (s.cache.map Prod.fst).toFinset).card ∧
        (∀ k v, (k, v) ∈ (runCalls (pureFun (ε := ε) g) s ks).2.cache → v = g k) ∧
        ((runCalls (pureFun (ε := ε) g) s ks).2.cache.map Prod.fst).toFinset =
          (s.cache.map Prod.fst).toFinset ∪ ks.toFinset) := by
  intro ks
  induction ks with
  | nil =>
      intro s hsound
      refine ⟨rfl, ?_, hsound, ?_⟩
      · simp [runCalls]
      · simp [runCalls]
  | cons k ks ih =>
      intro s hsound
      cases hget : dictGet s.cache k with
      | some v =>
          have hv : v = g k := hsound k v (dictGet_some_mem hget)
          have hmemk : k ∈ (s.cache.map Prod.fst).toFinset := by
            rw [List.mem_toFinset]
            exact List.mem_map_of_mem Prod.fst (dictGet_some_mem hget)
          have hstep : memoWrapper (pureFun (ε := ε) g) s k = (Except.ok v, s) := by
            unfold memoWrapper
            rw [hget]
          obtain ⟨ih1, ih2, ih3, ih4⟩ := ih s hsound
          refine ⟨?_, ?_, ?_, ?_⟩
          · simp only [runCalls, hstep, ih1, List.map_cons, hv]
          · simp only [runCalls, hstep, ih2, List.toFinset_cons]
            rw [Finset.insert_sdiff_of_mem _ hmemk]
          · simp only [runCalls, hstep]
            exact ih3
          · simp only [runCalls, hstep, ih4, List.toFinset_cons]
            ext x
            simp only [Finset.mem_union, Finset.mem_insert]
            constructor
            · intro hh
              rcases hh with hh | hh
              · exact Or.inl hh
              · exact Or.inr (Or.inr hh)
            · intro hh
              rcases hh with hh | hh
              · exact Or.inl hh
              · rcases hh with rfl | hh
                · exact Or.inl hmemk
                · exact Or.inr hh
      | none =>
          have hnotk : k ∉ (s.cache.map Prod.fst).toFinset := by
            rw [List.mem_toFinset]
            exact dictGet_none_iff.mp hget
          have hstep : memoWrapper (pureFun (ε := ε) g) s k =
              (Except.ok (g k), ⟨dictSet s.cache k (g k), s.calls + 1⟩) := by
            unfold memoWrapper
            rw [hget]
            rfl
          have hsound2 : ∀ k' v', (k', v') ∈ dictSet s.cache k (g k) → v' = g k' := by
            intro k' v' hm
            rcases mem_dictSet hm with ⟨rfl, rfl⟩ | hm2
            · rfl
            · exact hsound k' v' hm2
          obtain ⟨ih1, ih2, ih3, ih4⟩ := ih ⟨dictSet s.cache k (g k), s.calls + 1⟩ hsound2
          refine ⟨?_, ?_, ?_, ?_⟩
          · simp only [runCalls, hstep, ih1, List.map_cons]
          · simp only [runCalls, hstep, ih2, List.toFinset_cons, keys_dictSet]
            have hset : insert k ks.toFinset \ (s.cache.map Prod.fst).toFinset =
                insert k (ks.toFinset \ insert k (s.cache.map Prod.fst).toFinset) := by
              ext x
              simp only [Finset.mem_sdiff, Finset.mem_insert]
              constructor
              · intro hh
                rcases hh with ⟨hh1 | hh1, hh2⟩
                · exact Or.inl hh1
                · by_cases hx : x = k
                  · exact Or.inl hx
                  · exact Or.inr ⟨hh1, fun hc => by rcases hc with hc | hc <;> [exact hx hc; exact hh2 hc]⟩
              · intro hh
                rcases hh with rfl | ⟨hh1, hh2⟩
                · exact ⟨Or.inl rfl, hnotk⟩
                · exact ⟨Or.inr hh1, fun hc => hh2 (Or.inr hc)⟩
            rw [hset, Finset.card_insert_of_not_mem (by simp [Finset.mem_sdiff])]
            omega
          · simp only [runCalls, hstep]
            exact ih3
          · simp only [runCalls, hstep, ih4, keys_dictSet, List.toFinset_cons]
            ext x
            simp only [Finset.mem_union, Finset.mem_insert]
            tauto

/-- C2: for every deterministic wrapped function, the memoize wrapper runs the
underlying computation exactly once per distinct argument signature across a
sequence of calls, every call returns the correct stored result, the signature
is insensitive to keyword order but distinguishes different positional tuples
and keyword sets, and after `cache_clear()` the next call recomputes. -/
theorem memoize_contract {α : Type} :
    (∀ (g : MemoKey → α) (ks : List MemoKey),
        (runCalls (pureFun (ε := Unit) g) ⟨[], 0⟩ ks).2.calls = ks.toFinset.card) ∧
    (∀ (g : MemoKey → α) (ks : List MemoKey),
        (runCalls (pureFun (ε := Unit) g) ⟨[], 0⟩ ks).1 =
          ks.map (fun k => Except.ok (g k))) ∧
    (∀ (g : MemoKey → α) (s : MemoState MemoKey α) (k : MemoKey) (v : α),
        dictGet s.cache k = some v →
        memoWrapper (pureFun (ε := Unit) g) s k = (Except.ok v, s)) ∧
    (∀ (args : List Int) (kw1 kw2 : List (String × Int)),
        kw1.Perm kw2 → mkKey args kw1 = mkKey args kw2) ∧
    (∀ (args1 args2 : List Int) (kw1 kw2 : List (String × Int)),
        mkKey args1 kw1 = mkKey args2 kw2 →
        args1 = args2 ∧ kw1.toFinset = kw2.toFinset) ∧
    (∀ (g : MemoKey → α) (s : MemoState MemoKey α) (k : MemoKey),
        memoWrapper (pureFun (ε := Unit) g) (cache_clear s) k =
          (Except.ok (g k), ⟨dictSet [] k (g k), s.calls + 1⟩)) := by
  have hempty : ∀ (g : MemoKey → α) (k : MemoKey) (v : α),
      (k, v) ∈ (⟨[], 0⟩ : MemoState MemoKey α).cache → v = g k := by
    intro g k v h
    simp at h
  refine ⟨?_, ?_, ?_, ?_, ?_, ?_⟩
  · intro g ks
    obtain ⟨-, h2, -, -⟩ := runCalls_ok (ε := Unit) g ks ⟨[], 0⟩ (hempty g)
    rw [h2]
    simp
  · intro g ks
    obtain ⟨h1, -, -, -⟩ := runCalls_ok (ε := Unit) g ks ⟨[], 0⟩ (hempty g)
    exact h1
  · intro g s k v h
    unfold memoWrapper
    rw [h]
  · intro args kw1 kw2 hp
    unfold mkKey
    congr 1
    ext a
    simp [List.mem_toFinset, hp.mem_iff]
  · intro args1 args2 kw1 kw2 h
    exact ⟨congrArg MemoKey.args h, congrArg MemoKey.kwargs h⟩
  · intro g s k
    rfl

/-- Witness: the memoize contract evaluated at concrete calls — two calls with
an equal signature and one with a fresh signature run the computation twice in
total, keyword order does not change the signature, and a cached signature
returns the stored value. -/
theorem memoize_contract_witness :
    (runCalls (pureFun (ε := Unit) (fun _ : MemoKey => (7 : Int))) ⟨[], 0⟩
        [mkKey [1] [], mkKey [1] [], mkKey [2] []]).2.calls = 2 ∧
    mkKey [1] [("a", 1), ("b", 2)] = mkKey [1] [("b", 2), ("a", 1)] ∧
    memoWrapper (pureFun (ε := Unit) (fun _ : MemoKey => (7 : Int)))
        ⟨[(mkKey [2] [], 9)], 5⟩ (mkKey [2] []) =
      (Except.ok 9, ⟨[(mkKey [2] [], 9)], 5⟩) := by
  refine ⟨?_, ?_, ?_⟩
  · rw [(memoize_contract (α := Int)).1 (fun _ => 7)
      [mkKey [1] [], mkKey [1] [], mkKey [2] []]]
    decide
  · exact (memoize_contract (α := Int)).2.2.2.1 [1] _ _ (List.Perm.swap _ _ _)
  · exact (memoize_contract (α := Int)).2.2.1 (fun _ => 7) _ _ 9 (by decide)

/-- C9: when the wrapped function raises on an uncached signature, the
exception propagates, the cache is left unchanged (no entry is stored), and a
later call with the same signature runs the wrapped function again instead of
replaying a cached failure. -/
theorem memoize_error_propagates :
    ∀ (f : MemoKey → Except Int Int) (s : MemoState MemoKey Int) (k : MemoKey) (e : Int),
      dictGet s.cache k = none → f k = Except.error e →
      (memoWrapper f s k = (Except.error e, ⟨s.cache, s.calls + 1⟩) ∧
        memoWrapper f ⟨s.cache, s.calls + 1⟩ k = (Except.error e, ⟨s.cache, s.calls + 2⟩)) := by
  intro f s k e h1 h2
  constructor
  · unfold memoWrapper
    rw [h1, h2]
  · unfold memoWrapper
    dsimp only
    rw [h1, h2]

/-- Witness: a wrapped function that always raises, called twice on the empty
cache — both calls propagate the error, the cache stays empty, and the
computation runs once per call. -/
theorem memoize_error_propagates_witness :
    memoWrapper (fun _ : MemoKey => (Except.error (3 : Int) : Except Int Int))
        ⟨[], 0⟩ (mkKey [] []) = (Except.error 3, ⟨[], 1⟩) ∧
    memoWrapper (fun _ : MemoKey => (Except.error (3 : Int) : Except Int Int))
        ⟨[], 1⟩ (mkKey [] []) = (Except.error 3, ⟨[], 2⟩) :=
  memoize_error_propagates (fun _ => Except.error 3) ⟨[], 0⟩ (mkKey [] []) 3 rfl rfl

/-! ### `usage_percent` (claim C5)

Python numbers are modelled by `PyNum`: an int-typed or a float-typed value,
float arithmetic idealized over the rationals.  With `from __future__ import
division`, `used / total` is true division and raises `ZeroDivisionError`
exactly when `total` is numerically zero (for ints and floats alike); the
source catches that and substitutes `0.0` or `0` depending on the operand
types.  `round` is Python 3 `round`: banker's rounding (round-half-to-even)
at the given number of fractional digits, type-preserving. -/

/-- A Python number: int-typed or float-typed (floats idealized as rationals). -/
inductive PyNum where
  | int : Int → PyNum
  | float : Rat → PyNum
deriving DecidableEq

/-- `isinstance(x, float)`. -/
def PyNum.isFloat : PyNum → Bool
  | int _ => false
  | float _ => true

/-- The numeric value of a Python number. -/
def PyNum.toRat : PyNum → Rat
  | int n => (n : Rat)
  | float q => q

/-- Round half to even (Python's rounding mode) to an integer. -/
def roundHalfEven (q : Rat) : Int :=
  let f := ⌊q⌋
  let r := q - (f : Rat)
  if r < 1 / 2 then f
  else if 1 / 2 < r then f + 1
  else if f % 2 = 0 then f else f + 1

/-- Python `round(x, ndigits)`: type-preserving banker's rounding at `ndigits`
fractional digits (negative `ndigits` rounds at a positive power of ten). -/
def pyRound (x : PyNum) (ndigits : Int) : PyNum :=
  match x with
  | .float q =>
      if 0 ≤ ndigits then
        .float ((roundHalfEven (q * (10 : Rat) ^ ndigits.toNat) : Rat) /
          (10 : Rat) ^ ndigits.toNat)
      else
        .float ((roundHalfEven (q / (10 : Rat) ^ (-ndigits).toNat) : Rat) *
          (10 : Rat) ^ (-ndigits).toNat)
  | .int n =>
      if 0 ≤ ndigits then .int n
      else .int (roundHalfEven ((n : Rat) / (10 : Rat) ^ (-ndigits).toNat) *
        (10 : Int) ^ (-ndigits).toNat)

/-- `psutil._common.usage_percent(used, total, _round=None)`: compute
`(used / total) * 100`; on `ZeroDivisionError` (i.e. `total` numerically zero)
substitute `0.0` if either operand is float-typed, else int `0`; apply
`round(ret, _round)` when `_round` is given. -/
def usage_percent (used total : PyNum) (_round : Option Int) : PyNum :=
  let ret : PyNum :=
    if total.toRat = 0 then
      if used.isFloat || total.isFloat then .float 0 else .int 0
    else
      .float (used.toRat / total.toRat * 100)
  match _round with
  | some n => pyRound ret n
  | none => ret

theorem roundHalfEven_zero : roundHalfEven 0 = 0 := by
  unfold roundHalfEven
  norm_num

theorem pyRound_float_zero (n : Int) : pyRound (.float 0) n = .float 0 := by
  unfold pyRound
  dsimp only
  by_cases h : 0 ≤ n
  · rw [if_pos h]
    rw [show (0 : Rat) * (10 : Rat) ^ n.toNat = 0 from by ring, roundHalfEven_zero]
    norm_num
  · rw [if_neg h]
    rw [show (0 : Rat) / (10 : Rat) ^ (-n).toNat = 0 from by
      rw [zero_div], roundHalfEven_zero]
    norm_num

theorem pyRound_int_zero (n : Int) : pyRound (.int 0) n = .int 0 := by
  unfold pyRound
  dsimp only
  by_cases h : 0 ≤ n
  · rw [if_pos h]
  · rw [if_neg h]
    rw [show ((0 : Int) : Rat) / (10 : Rat) ^ (-n).toNat = 0 from by
      rw [Int.cast_zero, zero_div], roundHalfEven_zero]
    simp

/-- C5: whenever `total` is numerically zero, `usage_percent` never raises and
returns float `0.0` when either operand is float-typed and int `0` otherwise,
for every rounding argument (rounding a zero leaves it unchanged). -/
theorem usage_percent_total_zero (used total : PyNum) (r : Option Int)
    (h : total.toRat = 0) :
    usage_percent used total r =
      (if used.isFloat || total.isFloat then PyNum.float 0 else PyNum.int 0) := by
  unfold usage_percent
  rw [if_pos h]
  cases r with
  | none => rfl
  | some n =>
      dsimp only
      by_cases hf : used.isFloat || total.isFloat
      · rw [if_pos hf]
        exact pyRound_float_zero n
      · rw [if_neg hf]
        exact pyRound_int_zero n

/-- Witness: `usage_percent` on `(used, total) = (3, 0)`, `(3.0, 0)` and
`(3, 0.0)`, with and without rounding. -/
theorem usage_percent_total_zero_witness :
    usage_percent (.int 3) (.int 0) none = PyNum.int 0 ∧
    usage_percent (.float 3) (.int 0) none = PyNum.float 0 ∧
    usage_percent (.int 3) (.float 0) (some 2) = PyNum.float 0 ∧
    usage_percent (.int 3) (.int 0) (some 2) = PyNum.int 0 := by
  refine ⟨?_, ?_, ?_, ?_⟩
  · exact (usage_percent_total_zero (.int 3) (.int 0) none rfl).trans (by rfl)
  · exact (usage_percent_total_zero (.float 3) (.int 0) none rfl).trans (by rfl)
  · exact (usage_percent_total_zero (.int 3) (.float 0) (some 2) rfl).trans (by rfl)
  · exact (usage_percent_total_zero (.int 3) (.int 0) (some 2) rfl).trans (by rfl)

/-! ### `sockfam_to_enum` / `socktype_to_enum` (claim C6)

The runtime is modelled explicitly: whether the `enum` module exists
(Python >= 3.4), and the `socket.AddressFamily` / `socket.AddressType` tables
(`none` models the attribute being missing, raising `AttributeError`; an
IntEnum call with an unknown value raises `ValueError` — both are caught by
the source and turn into returning the raw number). -/

/-- The runtime's enum capabilities: the tables map member names to values. -/
structure PyRuntime where
  enumAvailable : Bool
  addressFamilies : Option (List (String × Int))
  addressTypes : Option (List (String × Int))

/-- What a normalizer call returns: a named IntEnum member or the raw int. -/
inductive PyEnumOrInt where
  | member : String → Int → PyEnumOrInt
  | raw : Int → PyEnumOrInt
deriving DecidableEq

/-- The numeric value carried by a normalizer result. -/
def PyEnumOrInt.toInt : PyEnumOrInt → Int
  | member _ v => v
  | raw v => v

/-- Is the result a named symbolic constant? -/
def PyEnumOrInt.isSymbolic : PyEnumOrInt → Bool
  | member _ _ => true
  | raw _ => false

/-- `IntEnum(num)` on a table: the first member carrying the value, or
`ValueError` (`none`). -/
def enumCall (table : List (String × Int)) (num : Int) : Option (String × Int) :=
  table.find? (fun p => p.2 = num)

/-- `psutil._common.sockfam_to_enum`: return `socket.AddressFamily(num)` when
the runtime has it, swallowing `ValueError`/`AttributeError` into returning
the raw number; with no `enum` module, return the raw number. -/
def sockfam_to_enum (rt : PyRuntime) (num : Int) : PyEnumOrInt :=
  if rt.enumAvailable = false then .raw num
  else
    match rt.addressFamilies with
    | none => .raw num
    | some table =>
        match enumCall table num with
        | some p => .member p.1 p.2
        | none => .raw num

/-- `psutil._common.socktype_to_enum`: same, over `socket.AddressType`. -/
def socktype_to_enum (rt : PyRuntime) (num : Int) : PyEnumOrInt :=
  if rt.enumAvailable = false then .raw num
  else
    match rt.addressTypes with
    | none => .raw num
    | some table =>
        match enumCall table num with
        | some p => .member p.1 p.2
        | none => .raw num

/-- The runtime recognizes a numeric code through a table: the `enum` module
exists, the table attribute exists, and some member carries the code. -/
def recognizes (avail : Bool) (t : Option (List (String × Int))) (num : Int) : Prop :=
  avail = true ∧ ∃ table, t = some table ∧ ∃ nm, (nm, num) ∈ table

theorem find?_eq_some_val {table : List (String × Int)} {num : Int}
    {p : String × Int} (h : table.find? (fun q => q.2 = num) = some p) :
    p.2 = num ∧ p ∈ table := by
  have h1 := List.find?_some h
  have h2 := List.mem_of_find?_eq_some h
  simp at h1
  exact ⟨h1, h2⟩

theorem find?_eq_none_no_val {table : List (String × Int)} {num : Int}
    (h : table.find? (fun q => q.2 = num) = none) :
    ∀ nm, (nm, num) ∉ table := by
  intro nm hmem
  have := List.find?_eq_none.mp h _ hmem
  simp at this

theorem sockfam_toInt (rt : PyRuntime) (num : Int) :
    (sockfam_to_enum rt num).toInt = num := by
  unfold sockfam_to_enum
  by_cases ha : rt.enumAvailable = false
  · rw [if_pos ha]
    rfl
  · rw [if_neg ha]
    cases ht : rt.addressFamilies with
    | none => rfl
    | some table =>
        dsimp only
        cases hfind : enumCall table num with
        | none => rfl
        | some p =>
            obtain ⟨hval, -⟩ := find?_eq_some_val hfind
            simpa [PyEnumOrInt.toInt] using hval

theorem sockfam_recognized (rt : PyRuntime) (num : Int)
    (h : recognizes rt.enumAvailable rt.addressFamilies num) :
    ∃ nm table, rt.addressFamilies = some table ∧ (nm, num) ∈ table ∧
      sockfam_to_enum rt num = .member nm num := by
  obtain ⟨ha, table, ht, nm0, hmem⟩ := h
  unfold sockfam_to_enum
  rw [if_neg (by simp [ha]), ht]
  dsimp only
  cases hfind : enumCall table num with
  | none => exact absurd hmem (find?_eq_none_no_val hfind nm0)
  | some p =>
      obtain ⟨nm, v⟩ := p
      obtain ⟨hval, hpmem⟩ := find?_eq_some_val hfind
      dsimp only at hval
      subst hval
      exact ⟨nm, table, rfl, hpmem, rfl⟩

theorem sockfam_not_recognized (rt : PyRuntime) (num : Int)
    (h : ¬ recognizes rt.enumAvailable rt.addressFamilies num) :
    sockfam_to_enum rt num = .raw num := by
  unfold sockfam_to_enum
  by_cases ha : rt.enumAvailable = false
  · rw [if_pos ha]
  · rw [if_neg ha]
    have ha2 : rt.enumAvailable = true := by
      revert ha
      cases rt.enumAvailable <;> simp
    cases ht : rt.addressFamilies with
    | none => rfl
    | some table =>
        dsimp only
        cases hfind : enumCall table num with
        | none => rfl
        | some p =>
            obtain ⟨hval, hpmem⟩ := find?_eq_some_val hfind
            exfalso
            refine h ⟨ha2, table, ht, p.1, ?_⟩
            rw [← hval]
            exact hpmem

/-- C6: both normalizers are total (they never fail and always preserve the
numeric value), return the named symbolic member carried by the runtime's
table exactly when the runtime recognizes the code, and otherwise return the
raw numeric input unchanged. -/
theorem to_enum_never_fails (rt : PyRuntime) (num : Int) :
    ((sockfam_to_enum rt num).toInt = num ∧ (socktype_to_enum rt num).toInt = num) ∧
    (recognizes rt.enumAvailable rt.addressFamilies num →
      ∃ nm table, rt.addressFamilies = some table ∧ (nm, num) ∈ table ∧
        sockfam_to_enum rt num = .member nm num) ∧
    (¬ recognizes rt.enumAvailable rt.addressFamilies num →
      sockfam_to_enum rt num = .raw num) ∧
    (recognizes rt.enumAvailable rt.addressTypes num →
      ∃ nm table, rt.addressTypes = some table ∧ (nm, num) ∈ table ∧
        socktype_to_enum rt num = .member nm num) ∧
    (¬ recognizes rt.enumAvailable rt.addressTypes num →
      socktype_to_enum rt num = .raw num) := by
  refine ⟨⟨sockfam_toInt rt num, ?_⟩, sockfam_recognized rt num,
    sockfam_not_recognized rt num, ?_, ?_⟩
  · exact sockfam_toInt ⟨rt.enumAvailable, rt.addressTypes, rt.addressFamilies⟩ num
  · exact sockfam_recognized ⟨rt.enumAvailable, rt.addressTypes, rt.addressFamilies⟩ num
  · exact sockfam_not_recognized ⟨rt.enumAvailable, rt.addressTypes, rt.addressFamilies⟩ num

/-- Witness: a runtime knowing `AF_INET = 2` and `SOCK_STREAM = 1` resolves
code 2 to the named family member, and passes the unknown code 99 through
unchanged in both normalizers. -/
theorem to_enum_never_fails_witness :
    sockfam_to_enum ⟨true, some [("AF_INET", 2)], some [("SOCK_STREAM", 1)]⟩ 2 =
      PyEnumOrInt.member "AF_INET" 2 ∧
    sockfam_to_enum ⟨true, some [("AF_INET", 2)], some [("SOCK_STREAM", 1)]⟩ 99 =
      PyEnumOrInt.raw 99 ∧
    socktype_to_enum ⟨true, some [("AF_INET", 2)], some [("SOCK_STREAM", 1)]⟩ 99 =
      PyEnumOrInt.raw 99 := by
  refine ⟨?_, ?_, ?_⟩
  · obtain ⟨nm, table, ht, hmem, hres⟩ :=
      (to_enum_never_fails ⟨true, some [("AF_INET", 2)], some [("SOCK_STREAM", 1)]⟩ 2).2.1
        ⟨rfl, [("AF_INET", 2)], rfl, "AF_INET", by simp⟩
    injection ht with ht2
    subst ht2
    simp at hmem
    rw [hres, hmem]
  · exact (to_enum_never_fails ⟨true, some [("AF_INET", 2)], some [("SOCK_STREAM", 1)]⟩ 99).2.2.1
      (by
        rintro ⟨-, table, ht, nm, hmem⟩
        injection ht with ht2
        subst ht2
        simp at hmem)
  · exact
      (to_enum_never_fails ⟨true, some [("AF_INET", 2)], some [("SOCK_STREAM", 1)]⟩ 99).2.2.2.2
      (by
        rintro ⟨-, table, ht, nm, hmem⟩
        injection ht with ht2
        subst ht2
        simp at hmem)

/-! ### `conn_tmap` (claims C3 and C4)

In the source, `AF_INET6 = getattr(socket, 'AF_INET6', None)` and
`AF_UNIX = getattr(socket, 'AF_UNIX', None)`: on a build without the family
the module-level constant is `None`, and that `None` is what flows into the
base dict literal.  Only the `tcp6`/`udp6`/`unix` keys are added
conditionally.  The two capability bits are explicit parameters here. -/

/-- A value usable as an address family inside `conn_tmap`: a real constant
or Python `None` (the `getattr` fallback on an unsupporting build). -/
inductive PyFam where
  | AF_INET : PyFam
  | AF_INET6 : PyFam
  | AF_UNIX : PyFam
  | none_ : PyFam
deriving DecidableEq

/-- A socket type constant. -/
inductive PySockType where
  | SOCK_STREAM : PySockType
  | SOCK_DGRAM : PySockType
deriving DecidableEq

/-- `AF_INET6 = getattr(socket, 'AF_INET6', None)`. -/
def AF_INET6 (hasIPv6 : Bool) : PyFam :=
  if hasIPv6 then .AF_INET6 else .none_

/-- `AF_UNIX = getattr(socket, 'AF_UNIX', None)`. -/
def AF_UNIX (hasUnix : Bool) : PyFam :=
  if hasUnix then .AF_UNIX else .none_

/-- `psutil._common.conn_tmap` as a function of the two capability bits: the
dict literal, then the conditional `update` calls (all conditional keys are
fresh, so `update` appends them in order). -/
def conn_tmap (hasIPv6 hasUnix : Bool) :
    List (String × (List PyFam × List PySockType)) :=
  let base : List (String × (List PyFam × List PySockType)) := [
    ("all", ([.AF_INET, AF_INET6 hasIPv6, AF_UNIX hasUnix],
      [.SOCK_STREAM, .SOCK_DGRAM])),
    ("tcp", ([.AF_INET, AF_INET6 hasIPv6], [.SOCK_STREAM])),
    ("tcp4", ([.AF_INET], [.SOCK_STREAM])),
    ("udp", ([.AF_INET, AF_INET6 hasIPv6], [.SOCK_DGRAM])),
    ("udp4", ([.AF_INET], [.SOCK_DGRAM])),
    ("inet", ([.AF_INET, AF_INET6 hasIPv6], [.SOCK_STREAM, .SOCK_DGRAM])),
    ("inet4", ([.AF_INET], [.SOCK_STREAM, .SOCK_DGRAM])),
    ("inet6", ([AF_INET6 hasIPv6], [.SOCK_STREAM, .SOCK_DGRAM]))]
  let withV6 :=
    if hasIPv6 then
      base ++ [("tcp6", ([AF_INET6 hasIPv6], [.SOCK_STREAM])),
        ("udp6", ([AF_INET6 hasIPv6], [.SOCK_DGRAM]))]
    else base
  if hasUnix then
    withV6 ++ [("unix", ([AF_UNIX hasUnix], [.SOCK_STREAM, .SOCK_DGRAM]))]
  else withV6

/-- C4: the table always has the eight unconditional kind keys; `tcp6` and
`udp6` are present exactly when IPv6 is available and `unix` exactly when
UNIX-domain sockets are available; resolving `tcp` yields the family pair
`[AF_INET, AF_INET6]` with type `[SOCK_STREAM]` (the `AF_INET6` constant of
the build); and `unix` on a build without UNIX sockets, like `bogus` on any
build, is absent from the table, which is the unknown-connection-kind
condition. -/
theorem conn_tmap_keys (h6 hU : Bool) :
    (∀ k ∈ ["all", "tcp", "tcp4", "udp", "udp4", "inet", "inet4", "inet6"],
        (dictGet (conn_tmap h6 hU) k).isSome = true) ∧
    ((dictGet (conn_tmap h6 hU) "tcp6").isSome = true ↔ h6 = true) ∧
    ((dictGet (conn_tmap h6 hU) "udp6").isSome = true ↔ h6 = true) ∧
    ((dictGet (conn_tmap h6 hU) "unix").isSome = true ↔ hU = true) ∧
    dictGet (conn_tmap h6 hU) "tcp" =
      some ([PyFam.AF_INET, AF_INET6 h6], [PySockType.SOCK_STREAM]) ∧
    (h6 = true → dictGet (conn_tmap h6 hU) "tcp" =
      some ([PyFam.AF_INET, PyFam.AF_INET6], [PySockType.SOCK_STREAM])) ∧
    (hU = false → dictGet (conn_tmap h6 hU) "unix" = none) ∧
    dictGet (conn_tmap h6 hU) "bogus" = none := by
  cases h6 <;> cases hU <;> exact (by decide)

/-- Witness: the key facts of the table evaluated on the build with IPv6 and
without UNIX sockets. -/
theorem conn_tmap_keys_witness :
    (dictGet (conn_tmap true false) "all").isSome = true ∧
    (dictGet (conn_tmap true false) "tcp6").isSome = true ∧
    dictGet (conn_tmap true false) "tcp" =
      some ([PyFam.AF_INET, PyFam.AF_INET6], [PySockType.SOCK_STREAM]) ∧
    dictGet (conn_tmap true false) "unix" = none := by
  refine ⟨?_, ?_, ?_, ?_⟩
  · exact (conn_tmap_keys true false).1 "all" (by simp)
  · exact (conn_tmap_keys true false).2.1.mpr rfl
  · exact (conn_tmap_keys true false).2.2.2.2.2.1 rfl
  · exact (conn_tmap_keys true false).2.2.2.2.2.2.1 rfl

/-- Counterexample to C3 as stated: on a build without IPv6 the table still
contains the `inet6` entry — an entry for the unsupported family — present
with the `None` placeholder in its family list rather than being omitted. -/
theorem conn_tmap_unsupported_entry_present :
    ("inet6", ([PyFam.none_], [PySockType.SOCK_STREAM, PySockType.SOCK_DGRAM])) ∈
        conn_tmap false false ∧
    ¬ (∀ e ∈ conn_tmap false false, PyFam.none_ ∉ e.2.1) := by
  constructor
  · decide
  · decide

/-- C3 amended: only the conditionally-added kinds are omitted when their
family is unsupported — without IPv6 the keys `tcp6` and `udp6` are absent
and without UNIX sockets the key `unix` is absent, so those keywords fail as
an unknown filter; the unconditional entries (such as `inet6`) stay present
with the `None` placeholder standing for the missing family. -/
theorem conn_tmap_conditional_keys (h6 hU : Bool) :
    (h6 = false → dictGet (conn_tmap h6 hU) "tcp6" = none ∧
      dictGet (conn_tmap h6 hU) "udp6" = none) ∧
    (hU = false → dictGet (conn_tmap h6 hU) "unix" = none) ∧
    (h6 = false → dictGet (conn_tmap h6 hU) "inet6" =
      some ([PyFam.none_], [PySockType.SOCK_STREAM, PySockType.SOCK_DGRAM])) := by
  cases h6 <;> cases hU <;> exact (by decide)

/-- Witness: the conditional-key facts on the build with neither capability. -/
theorem conn_tmap_conditional_keys_witness :
    dictGet (conn_tmap false false) "tcp6" = none ∧
    dictGet (conn_tmap false false) "unix" = none ∧
    dictGet (conn_tmap false false) "inet6" =
      some ([PyFam.none_], [PySockType.SOCK_STREAM, PySockType.SOCK_DGRAM]) := by
  refine ⟨?_, ?_, ?_⟩
  · exact ((conn_tmap_conditional_keys false false).1 rfl).1
  · exact (conn_tmap_conditional_keys false false).2.1 rfl
  · exact (conn_tmap_conditional_keys false false).2.2 rfl

/-! ### Error rendering (claim C7) and process identity (claim C8)

The exception classes and the `Process` class are not among the given source
files — only their tests are — so they are modelled from the spec. -/

/-- Modelled from the spec: the `NotFound` taxonomy kind (psutil
`NoSuchProcess`), missing from the given sources.  It carries the structured
context `{pid, name (optional), message (optional)}` of section 4.2 of the
spec. -/
structure NotFound where
  pid : Int
  name : Option String
  msg : Option String

/-- Modelled from the spec: the rendering contract of section 4.2 — the kind,
then either the explicit message (which always wins, suppressing the
structured fields) or the default phrase followed by
`(pid=<pid>[, name='<name>'])`. -/
def renderNotFound (e : NotFound) : String :=
  "NotFound " ++
    match e.msg with
    | some m => m
    | none =>
        "process no longer exists (pid=" ++ toString e.pid ++
          (match e.name with
            | some n => ", name=\x27" ++ n ++ "\x27"
            | none => "") ++ ")"

/-- C7: a `NotFound` with pid 321 and no explicit message renders exactly as
the default phrase with the pid; adding the name `foo` appends the quoted name
field; an explicit message `foo` renders as the kind plus the message alone,
suppressing the structured fields. -/
theorem renderNotFound_contract :
    renderNotFound ⟨321, none, none⟩ =
      "NotFound process no longer exists (pid=321)" ∧
    renderNotFound ⟨321, some "foo", none⟩ =
      "NotFound process no longer exists (pid=321, name=\x27foo\x27)" ∧
    renderNotFound ⟨321, none, some "foo"⟩ = "NotFound foo" := by
  refine ⟨?_, ?_, ?_⟩ <;> rfl

/-- Modelled from the spec: a process handle carrying the compound identity
key `(pid, create_time)`, missing from the given sources. -/
structure ProcessHandle where
  pid : Int
  create_time : Rat
deriving DecidableEq

/-- The identity tuple of a handle. -/
def ProcessHandle.ident (p : ProcessHandle) : Int × Rat :=
  (p.pid, p.create_time)

/-- A Python value a handle may be compared against. -/
inductive PyValue where
  | proc : ProcessHandle → PyValue
  | str : String → PyValue
  | int : Int → PyValue
deriving DecidableEq

/-- Modelled from the spec: handle equality — true iff the compared value is
another handle with the same identity tuple; comparison against a value of an
unrelated type returns not-equal instead of failing. -/
def procEq (p : ProcessHandle) (other : PyValue) : Bool :=
  match other with
  | .proc q => decide (p.ident = q.ident)
  | _ => false

/-- Modelled from the spec: the hash of a handle is a deterministic function
of the identity tuple alone. -/
def procHash (p : ProcessHandle) : Int :=
  p.ident.1 + p.ident.2.num + p.ident.2.den

/-- C8: two handles compare equal iff their (pid, create_time) tuples match
in both components; equal handles are the same handle and have identical
hashes (so duplicates collapse as set/map keys); comparison against a string
or an int returns not-equal rather than failing. -/
theorem process_identity_contract (p q : ProcessHandle) :
    (procEq p (.proc q) = true ↔ p.pid = q.pid ∧ p.create_time = q.create_time) ∧
    (procEq p (.proc q) = true → p = q ∧ procHash p = procHash q) ∧
    (∀ s, procEq p (.str s) = false) ∧
    (∀ n, procEq p (.int n) = false) := by
  have hident : p.ident = q.ident ↔ p.pid = q.pid ∧ p.create_time = q.create_time := by
    unfold ProcessHandle.ident
    constructor
    · intro h
      exact ⟨congrArg Prod.fst h, congrArg Prod.snd h⟩
    · intro ⟨h1, h2⟩
      rw [h1, h2]
  refine ⟨?_, ?_, fun s => rfl, fun n => rfl⟩
  · unfold procEq
    rw [decide_eq_true_iff]
    exact hident
  · intro h
    unfold procEq at h
    rw [decide_eq_true_iff, hident] at h
    obtain ⟨h1, h2⟩ := h
    have hpq : p = q := by
      cases p
      cases q
      simp only at h1 h2
      rw [h1, h2]
    exact ⟨hpq, by rw [hpq]⟩

/-- Witness: two handles with equal identity collapse, and a handle is
not-equal to a string without failing. -/
theorem process_identity_contract_witness :
    (procEq ⟨321, 5⟩ (.proc ⟨321, 5⟩) = true ↔
      (321 : Int) = 321 ∧ (5 : Rat) = 5) ∧
    (⟨321, 5⟩ : ProcessHandle) = ⟨321, 5⟩ ∧
    procHash ⟨321, 5⟩ = procHash ⟨321, 5⟩ ∧
    procEq ⟨321, 5⟩ (.str "foo") = false := by
  refine ⟨(process_identity_contract ⟨321, 5⟩ ⟨321, 5⟩).1, ?_, ?_, ?_⟩
  · exact ((process_identity_contract ⟨321, 5⟩ ⟨321, 5⟩).2.1 (by decide)).1
  · exact ((process_identity_contract ⟨321, 5⟩ ⟨321, 5⟩).2.1 (by decide)).2
  · exact (process_identity_contract ⟨321, 5⟩ ⟨321, 5⟩).2.2.1 "foo"

end Psutil

